import Mathlib

/-!
Shallow embedding of the dex-rust backend's cache-aside orchestration and
rate-gating logic (src/backend/src/handlers.rs, src/backend/src/crypto_service.rs,
src/backend/src/models.rs).

Conventions of the embedding:
* `chrono::DateTime<Utc>` timestamps are modelled as `Int` (seconds); the code
  only ever compares timestamps and adds second-valued durations to them.
* `f64` fields are modelled as `ℚ`; the code performs only comparisons, sums
  and one division on them, and no claim concerns rounding of binary floats.
* The MongoDB collections are modelled as association lists keyed by
  `token_id` (`find_one` on the filter `\x7b token_id: id \x7d` returns the first
  matching document; `update_one` updates the first matching document).
* Fallible upstream fetches are passed in as an `Except String _` argument:
  the value the `CryptoService` fetcher would return if called.
-/

/-- Embeds `models.rs::CryptoToken` (the Mongo `_id` bookkeeping field is
dropped: it is never read by the handlers). -/
structure CryptoToken where
  token_id : String
  symbol : String
  name : String
  current_price : ℚ
  market_cap : ℚ
  volume_24h : ℚ
  price_change_24h : ℚ
  price_change_percentage_24h : ℚ
  high_24h : Option ℚ
  low_24h : Option ℚ
  circulating_supply : Option ℚ
  total_supply : Option ℚ
  ath : Option ℚ
  ath_change_percentage : Option ℚ
  atl : Option ℚ
  atl_change_percentage : Option ℚ
  image : Option String
  last_updated : Int
  is_favorite : Bool
deriving Repr, DecidableEq

/-- Embeds `handlers.rs` lines 9-12: the two global mutex-protected
timestamps `LAST_API_CALL` and `RATE_LIMITED_UNTIL`. -/
structure GateState where
  lastCall : Option Int
  rlUntil : Option Int
deriving Repr, DecidableEq

/-- `handlers.rs` line 14: `MIN_REQUEST_INTERVAL_SECS`. -/
def MIN_REQUEST_INTERVAL_SECS : Int := 2

/-- `handlers.rs` line 15: `RATE_LIMIT_BACKOFF_SECS`. -/
def RATE_LIMIT_BACKOFF_SECS : Int := 60

/-- Second half of `can_make_api_call` (lines 27-33): the `LAST_API_CALL`
check. -/
def lastCallOk (st : GateState) (now : Int) : Bool :=
  match st.lastCall with
  | some last => !(now - last < MIN_REQUEST_INTERVAL_SECS)
  | none => true

/-- Embeds `handlers.rs::can_make_api_call` (lines 17-34): blocked while
`RATE_LIMITED_UNTIL` is set and strictly in the future, otherwise blocked
while less than `MIN_REQUEST_INTERVAL_SECS` has elapsed since
`LAST_API_CALL`. -/
def can_make_api_call (st : GateState) (now : Int) : Bool :=
  match st.rlUntil with
  | some u => if now < u then false else lastCallOk st now
  | none => lastCallOk st now

/-- Embeds `handlers.rs::record_api_call` (lines 36-39). -/
def record_api_call (st : GateState) (now : Int) : GateState :=
  { st with lastCall := some now }

/-- Embeds `handlers.rs::record_rate_limit` (lines 41-45). -/
def record_rate_limit (st : GateState) (now : Int) : GateState :=
  { st with rlUntil := some (now + RATE_LIMIT_BACKOFF_SECS) }

/-- "The minimum interval since `last_call_at` has passed" at instant `t`
(vacuously true when no call was ever recorded). -/
def minIntervalElapsed (st : GateState) (t : Int) : Prop :=
  ∀ l, st.lastCall = some l → MIN_REQUEST_INTERVAL_SECS ≤ t - l

/-- C1: `can_make_api_call` returns true unless the throttle timestamp is set
and strictly in the future, or less than 2 time units have elapsed since the
recorded last call; with no recorded call and no throttle it returns true. -/
theorem may_call_characterization (st : GateState) (now : Int) :
    (can_make_api_call st now = true ↔
      (¬ ∃ u, st.rlUntil = some u ∧ now < u) ∧
      (¬ ∃ l, st.lastCall = some l ∧ now - l < MIN_REQUEST_INTERVAL_SECS)) ∧
    can_make_api_call ⟨none, none⟩ now = true := by
  constructor
  · rcases st with ⟨lc, rl⟩
    cases rl <;> cases lc <;>
      simp only [can_make_api_call, lastCallOk] <;> simp
  · rfl

/-- C2: `record_rate_limit` sets the throttle timestamp to `now + 60`;
afterwards the gate refuses every instant strictly before `now + 60` and,
provided the minimum interval since the last recorded call has passed,
allows any instant from `now + 60` on. -/
theorem record_throttled_backoff (st : GateState) (now t : Int) :
    (record_rate_limit st now).rlUntil = some (now + RATE_LIMIT_BACKOFF_SECS) ∧
    (t < now + RATE_LIMIT_BACKOFF_SECS →
      can_make_api_call (record_rate_limit st now) t = false) ∧
    (now + RATE_LIMIT_BACKOFF_SECS ≤ t → minIntervalElapsed st t →
      can_make_api_call (record_rate_limit st now) t = true) := by
  refine ⟨rfl, ?_, ?_⟩
  · intro hlt
    simp [can_make_api_call, record_rate_limit, hlt]
  · intro hge hmin
    rcases st with ⟨lc, rl⟩
    cases lc with
    | none =>
        simp [can_make_api_call, record_rate_limit, lastCallOk]
        omega
    | some l =>
        have h2 := hmin l rfl
        simp [can_make_api_call, record_rate_limit, lastCallOk,
          MIN_REQUEST_INTERVAL_SECS] at h2 ⊢
        omega

/-- Witness for `record_throttled_backoff`: from an empty gate throttled at
time 0, the gate refuses at instant 59 and allows at instant 60. -/
theorem record_throttled_backoff_witness :
    can_make_api_call (record_rate_limit ⟨none, none⟩ 0) 59 = false ∧
    can_make_api_call (record_rate_limit ⟨none, none⟩ 0) 60 = true := by
  constructor
  · exact (record_throttled_backoff ⟨none, none⟩ 0 59).2.1 (by decide)
  · exact (record_throttled_backoff ⟨none, none⟩ 0 60).2.2 (by decide)
      (fun l h => by cases h)

/-- The descending-market-cap ordering of `get_cached_tokens`
(`handlers.rs` line 97: `b.market_cap.partial_cmp(&a.market_cap)`,
`unwrap_or(Equal)`): on `ℚ` (no NaN) this is `b.market_cap ≤ a.market_cap`. -/
def mcGE (a b : CryptoToken) : Prop := b.market_cap ≤ a.market_cap

instance : DecidableRel mcGE := fun a b =>
  decidable_of_iff (b.market_cap ≤ a.market_cap) Iff.rfl

instance : IsTotal CryptoToken mcGE := ⟨fun a b => le_total b.market_cap a.market_cap⟩

instance : IsTrans CryptoToken mcGE := ⟨fun _ _ _ hab hbc => le_trans hbc hab⟩

/-- Embeds `handlers.rs::get_cached_tokens` (lines 84-99) applied to the raw
collection contents (the cursor's documents in storage order): sort by
market cap descending. Rust's `sort_by` is a stable sort, and a stable
insertion sort computes the same list. -/
def get_cached_tokens (raw : List CryptoToken) : List CryptoToken :=
  List.insertionSort mcGE raw

/-- Lower-casing of a string (`str::to_lowercase`). -/
def strLower (s : String) : String := String.mk (s.data.map Char.toLower)

/-- Substring containment on character lists (`str::contains`); an empty
needle matches everywhere. -/
def listContainsSub (needle : List Char) : List Char → Bool
  | [] => needle.isEmpty
  | a :: rest => needle.isPrefixOf (a :: rest) || listContainsSub needle rest

/-- `hay.contains(needle)` on strings. -/
def strContains (hay needle : String) : Bool :=
  listContainsSub needle.data hay.data

/-- Embeds the throttle-marker test of `handlers.rs` (lines 133-134 etc.):
lowercase the error message, then look for `"429"` or `"rate"`. -/
def isRateLimitMsg (e : String) : Bool :=
  strContains (strLower e) "429" || strContains (strLower e) "rate"

/-- Outcome of `get_tokens`: a 200 token list or the 503
`retry_after`-carrying unavailable body. -/
inductive TokensResponse where
  | tokens (ts : List CryptoToken)
  | unavailable (retry_after : Nat)
deriving Repr, DecidableEq

/-- Embeds `handlers.rs::get_tokens` (lines 101-153). The cached tokens are
read (and sorted) before the gate is consulted; `fetch` is the value
`fetch_top_tokens(100)` would produce if called. The spawned background
`save_tokens_to_cache` is modelled separately (see `save_tokens_to_cache`
below); this function returns the HTTP body and the gate state. -/
def get_tokens (st : GateState) (now : Int) (cachedRaw : List CryptoToken)
    (fetch : Except String (List CryptoToken)) : TokensResponse × GateState :=
  let cached := get_cached_tokens cachedRaw
  let fallback : GateState → TokensResponse × GateState := fun s =>
    if cached.isEmpty then (.unavailable 60, s) else (.tokens cached, s)
  if can_make_api_call st now then
    let st1 := record_api_call st now
    match fetch with
    | .ok ts => if ts.isEmpty then fallback st1 else (.tokens ts, st1)
    | .error e =>
        fallback (if isRateLimitMsg e then record_rate_limit st1 now else st1)
  else fallback st

/-- C3: with a non-empty cache, whenever the gate is closed, the fetch
fails, or the fetch returns an empty list, `get_tokens` answers exactly the
cached tokens sorted by market cap descending (a permutation of the cache
contents, sorted by `mcGE`). -/
theorem list_tokens_cache_fallback (st : GateState) (now : Int)
    (cachedRaw : List CryptoToken) (fetch : Except String (List CryptoToken))
    (hne : cachedRaw ≠ [])
    (hfall : can_make_api_call st now = false ∨
      (∃ e, fetch = .error e) ∨ fetch = .ok []) :
    (get_tokens st now cachedRaw fetch).1 = .tokens (get_cached_tokens cachedRaw) ∧
    (get_cached_tokens cachedRaw).Perm cachedRaw ∧
    List.Sorted mcGE (get_cached_tokens cachedRaw) := by
  have hperm : (get_cached_tokens cachedRaw).Perm cachedRaw :=
    List.perm_insertionSort mcGE cachedRaw
  have hsorted : List.Sorted mcGE (get_cached_tokens cachedRaw) :=
    List.sorted_insertionSort mcGE cachedRaw
  have hne2 : (get_cached_tokens cachedRaw).isEmpty = false := by
    cases h : get_cached_tokens cachedRaw with
    | nil =>
        have h0 : List.Perm ([] : List CryptoToken) cachedRaw := h ▸ hperm
        exact absurd (List.Perm.eq_nil h0.symm) hne
    | cons a l => rfl
  refine ⟨?_, hperm, hsorted⟩
  rcases hfall with hclosed | ⟨e, he⟩ | hempty
  · simp [get_tokens, hclosed, hne2]
  · subst he
    by_cases hc : can_make_api_call st now <;> simp [get_tokens, hc, hne2]
  · subst hempty
    by_cases hc : can_make_api_call st now <;> simp [get_tokens, hc, hne2]

/-- A token value with the given identity, market cap, 24h percentage
change and favorite flag (remaining fields zero/none). -/
def mkTok (id sym nm : String) (mc pct : ℚ) (fav : Bool) : CryptoToken :=
  ⟨id, sym, nm, 0, mc, 0, 0, pct, none, none, none, none, none, none, none,
    none, none, 0, fav⟩

def btcTok : CryptoToken := mkTok "bitcoin" "btc" "Bitcoin" 100 5 false

def ethTok : CryptoToken := mkTok "eth" "eth" "Ethereum" 200 5 false

/-- Witness for `list_tokens_cache_fallback`, on the spec's own example:
cache `bitcoin` (market cap 100) and `eth` (market cap 200), gate closed,
empty upstream result: the reply is `[eth, bitcoin]` in that order. -/
theorem list_tokens_cache_fallback_witness :
    (get_tokens ⟨none, some 10⟩ 5 [btcTok, ethTok] (.ok [])).1 =
      .tokens [ethTok, btcTok] := by
  have h := (list_tokens_cache_fallback ⟨none, some 10⟩ 5 [btcTok, ethTok]
    (.ok []) (by decide) (Or.inl (by decide))).1
  rw [h]; decide

/-- Embeds `models.rs::CoinGeckoMarket`: one upstream market snapshot. -/
structure CoinGeckoMarket where
  id : String
  symbol : String
  name : String
  image : String
  current_price : ℚ
  market_cap : ℚ
  market_cap_rank : Option Nat
  fully_diluted_valuation : Option ℚ
  total_volume : ℚ
  high_24h : Option ℚ
  low_24h : Option ℚ
  price_change_24h : Option ℚ
  price_change_percentage_24h : Option ℚ
  market_cap_change_24h : Option ℚ
  market_cap_change_percentage_24h : Option ℚ
  circulating_supply : Option ℚ
  total_supply : Option ℚ
  max_supply : Option ℚ
  ath : Option ℚ
  ath_change_percentage : Option ℚ
  ath_date : Option String
  atl : Option ℚ
  atl_change_percentage : Option ℚ
  atl_date : Option String
  last_updated : String
deriving Repr, DecidableEq

/-- The market-to-token conversion of `crypto_service.rs::fetch_top_tokens`
(lines 57-81): defaults the signed 24h changes to 0 when absent, stamps
`last_updated` with now, and always sets `is_favorite: false`. -/
def marketToToken (now : Int) (m : CoinGeckoMarket) : CryptoToken :=
  { token_id := m.id
    symbol := m.symbol
    name := m.name
    current_price := m.current_price
    market_cap := m.market_cap
    volume_24h := m.total_volume
    price_change_24h := m.price_change_24h.getD 0
    price_change_percentage_24h := m.price_change_percentage_24h.getD 0
    high_24h := m.high_24h
    low_24h := m.low_24h
    circulating_supply := m.circulating_supply
    total_supply := m.total_supply
    ath := m.ath
    ath_change_percentage := m.ath_change_percentage
    atl := m.atl
    atl_change_percentage := m.atl_change_percentage
    image := some m.image
    last_updated := now
    is_favorite := false }

/-- Embeds the successful-parse tail of
`crypto_service.rs::fetch_top_tokens` (lines 57-83): every parsed market
becomes a `CryptoToken` via `marketToToken`. -/
def fetch_top_tokens (now : Int) (markets : List CoinGeckoMarket) :
    List CryptoToken :=
  markets.map (marketToToken now)

/-- C10: when the gate is open and the fetch succeeds with a non-empty
list, `get_tokens` replies with the fetched list as built by
`fetch_top_tokens` — independent of the cache contents — and every token in
that reply has `is_favorite = false`. -/
theorem list_refresh_favorites_false (st : GateState) (now : Int)
    (cachedRaw : List CryptoToken) (markets : List CoinGeckoMarket)
    (hopen : can_make_api_call st now = true)
    (hne : fetch_top_tokens now markets ≠ []) :
    (get_tokens st now cachedRaw (.ok (fetch_top_tokens now markets))).1 =
      .tokens (fetch_top_tokens now markets) ∧
    ∀ t ∈ fetch_top_tokens now markets, t.is_favorite = false := by
  constructor
  · have hne2 : (fetch_top_tokens now markets).isEmpty = false := by
      cases h : fetch_top_tokens now markets with
      | nil => exact absurd h hne
      | cons a l => rfl
    simp [get_tokens, hopen, hne2]
  · intro t ht
    rcases List.mem_map.1 ht with ⟨m, _, rfl⟩
    rfl

/-- A concrete upstream market snapshot for witnesses. -/
def sampleMarket : CoinGeckoMarket :=
  { id := "bitcoin", symbol := "btc", name := "Bitcoin", image := "img",
    current_price := 10, market_cap := 100, market_cap_rank := none,
    fully_diluted_valuation := none, total_volume := 7, high_24h := none,
    low_24h := none, price_change_24h := none,
    price_change_percentage_24h := none, market_cap_change_24h := none,
    market_cap_change_percentage_24h := none, circulating_supply := none,
    total_supply := none, max_supply := none, ath := none,
    ath_change_percentage := none, ath_date := none, atl := none,
    atl_change_percentage := none, atl_date := none, last_updated := "t" }

/-- Witness for `list_refresh_favorites_false`: the cached `bitcoin` record
is a favorite, the fetch returns a fresh `bitcoin` snapshot, and the reply
carries that snapshot with `is_favorite = false`. -/
theorem list_refresh_favorites_false_witness :
    (get_tokens ⟨none, none⟩ 0 [mkTok "bitcoin" "btc" "Bitcoin" 100 5 true]
        (.ok (fetch_top_tokens 0 [sampleMarket]))).1 =
      .tokens [marketToToken 0 sampleMarket] ∧
    (marketToToken 0 sampleMarket).is_favorite = false := by
  have h := list_refresh_favorites_false ⟨none, none⟩ 0
    [mkTok "bitcoin" "btc" "Bitcoin" 100 5 true] [sampleMarket]
    (by decide) (by decide)
  exact ⟨h.1, h.2 (marketToToken 0 sampleMarket) (by simp [fetch_top_tokens])⟩

/-- `find_one` on the filter by `token_id` (the first matching document of
the tokens collection, in storage order). -/
def findTok (store : List CryptoToken) (id : String) : Option CryptoToken :=
  store.find? (fun d => d.token_id == id)

/-- The document produced by the `$set` part of the upsert in
`save_tokens_to_cache` (lines 50-74): every `CryptoToken` field is written
from the fetched token, `last_updated` is stamped with now, and
`is_favorite` is NOT in the `$set` list — it is supplied by the caller
(the old value on update, the `$setOnInsert` default `false` on insert). -/
def setDoc (now : Int) (t : CryptoToken) (fav : Bool) : CryptoToken :=
  { t with last_updated := now, is_favorite := fav }

/-- One `update_one(filter, update, upsert: true)` of
`save_tokens_to_cache`: replace the first document whose `token_id`
matches, keeping its `is_favorite`; insert with `is_favorite := false` when
no document matches. -/
def upsertToken (now : Int) (t : CryptoToken) :
    List CryptoToken → List CryptoToken
  | [] => [setDoc now t false]
  | d :: ds =>
      if d.token_id == t.token_id then setDoc now t d.is_favorite :: ds
      else d :: upsertToken now t ds

/-- Embeds `handlers.rs::save_tokens_to_cache` (lines 47-82): one upsert
per fetched token, in order. -/
def save_tokens_to_cache (now : Int) (store : List CryptoToken)
    (tokens : List CryptoToken) : List CryptoToken :=
  tokens.foldl (fun s tk => upsertToken now tk s) store

/-- The `is_favorite` value an upsert writes, given what `find_one` saw:
the existing flag if a record was present, `false` otherwise. -/
def favOf : Option CryptoToken → Bool
  | some old => old.is_favorite
  | none => false

theorem findTok_upsert_self (now : Int) (t : CryptoToken)
    (store : List CryptoToken) :
    findTok (upsertToken now t store) t.token_id =
      some (setDoc now t (favOf (findTok store t.token_id))) := by
  induction store with
  | nil => simp [findTok, upsertToken, setDoc, favOf]
  | cons d ds ih =>
      by_cases h : d.token_id = t.token_id
      · simp [findTok, upsertToken, h, setDoc, favOf]
      · have hb : (d.token_id == t.token_id) = false := by
          simp [h]
        simp only [upsertToken, hb, Bool.false_eq_true, if_false, findTok,
          List.find?] at ih ⊢
        simp [hb, ih]

theorem findTok_upsert_other (now : Int) (x : CryptoToken)
    (store : List CryptoToken) (id : String) (h : x.token_id ≠ id) :
    findTok (upsertToken now x store) id = findTok store id := by
  induction store with
  | nil =>
      have hb : (x.token_id == id) = false := by simp [h]
      simp [findTok, upsertToken, setDoc, hb]
  | cons d ds ih =>
      by_cases hd : d.token_id = x.token_id
      · have hb : (d.token_id == x.token_id) = true := by simp [hd]
        have hxid : (x.token_id == id) = false := by simp [h]
        have hdid : (d.token_id == id) = false := by
          rw [hd]; simp [h]
        simp [findTok, upsertToken, hb, setDoc, hxid, hdid]
      · have hb : (d.token_id == x.token_id) = false := by simp [hd]
        by_cases hdid : d.token_id = id
        · have hb2 : (d.token_id == id) = true := by simp [hdid]
          simp [findTok, upsertToken, hb, hb2]
        · have hb2 : (d.token_id == id) = false := by simp [hdid]
          simp only [upsertToken, hb, Bool.false_eq_true, if_false, findTok,
            List.find?, hb2] at ih ⊢
          exact ih

theorem findTok_save_untouched (now : Int) (store : List CryptoToken)
    (ts : List CryptoToken) (id : String)
    (hno : ∀ x ∈ ts, x.token_id ≠ id) :
    findTok (save_tokens_to_cache now store ts) id = findTok store id := by
  induction ts generalizing store with
  | nil => rfl
  | cons x rest ih =>
      have hx : x.token_id ≠ id := hno x (List.mem_cons_self x rest)
      have hrest : ∀ y ∈ rest, y.token_id ≠ id :=
        fun y hy => hno y (List.mem_cons_of_mem x hy)
      calc findTok (save_tokens_to_cache now (upsertToken now x store) rest) id
          = findTok (upsertToken now x store) id := ih _ hrest
        _ = findTok store id := findTok_upsert_other now x store id hx

/-- C5: a token refresh (bulk or single) writes every field of the fetched
token and stamps `last_updated`, but keeps the stored `is_favorite` of an
existing record and defaults it to `false` only on first insert. Stated for
any batch in which `t` is the unique token carrying its `token_id`. -/
theorem upsert_preserves_favorite (now : Int) (store : List CryptoToken)
    (ts : List CryptoToken) (t : CryptoToken)
    (huniq : ts.filter (fun c => c.token_id == t.token_id) = [t]) :
    findTok (save_tokens_to_cache now store ts) t.token_id =
      some { t with last_updated := now,
                    is_favorite := favOf (findTok store t.token_id) } := by
  induction ts generalizing store with
  | nil => simp at huniq
  | cons x rest ih =>
      by_cases hx : x.token_id = t.token_id
      · have hbx : (x.token_id == t.token_id) = true := by simp [hx]
        have hsplit := huniq
        simp only [List.filter_cons, hbx, if_true] at hsplit
        have hxt : x = t := (List.cons_eq_cons.1 hsplit).1
        have hrest : rest.filter (fun c => c.token_id == t.token_id) = [] :=
          (List.cons_eq_cons.1 hsplit).2
        have hno : ∀ y ∈ rest, y.token_id ≠ t.token_id := by
          intro y hy hcon
          have hmem : y ∈ rest.filter (fun c => c.token_id == t.token_id) :=
            List.mem_filter.2 ⟨hy, by simp [hcon]⟩
          rw [hrest] at hmem
          cases hmem
        rw [hxt]
        have hstep :
            findTok (save_tokens_to_cache now (upsertToken now t store) rest)
              t.token_id = findTok (upsertToken now t store) t.token_id :=
          findTok_save_untouched now _ rest t.token_id hno
        calc findTok (save_tokens_to_cache now store (t :: rest)) t.token_id
            = findTok (upsertToken now t store) t.token_id := hstep
          _ = some (setDoc now t (favOf (findTok store t.token_id))) :=
              findTok_upsert_self now t store
          _ = some { t with last_updated := now,
                            is_favorite := favOf (findTok store t.token_id) } := rfl
      · have hbx : (x.token_id == t.token_id) = false := by simp [hx]
        have hrest : rest.filter (fun c => c.token_id == t.token_id) = [t] := by
          simpa only [List.filter_cons, hbx, Bool.false_eq_true,
            if_false] using huniq
        have hrec := ih (upsertToken now x store) hrest
        have hother := findTok_upsert_other now x store t.token_id hx
        calc findTok (save_tokens_to_cache now store (x :: rest)) t.token_id
            = some { t with last_updated := now,
                            is_favorite :=
                              favOf (findTok (upsertToken now x store) t.token_id) } :=
              hrec
          _ = some { t with last_updated := now,
                            is_favorite := favOf (findTok store t.token_id) } := by
              rw [hother]

/-- Witness for `upsert_preserves_favorite`: refreshing a cached `bitcoin`
whose `is_favorite` is `true` with a fresh non-favorite snapshot leaves
`is_favorite = true`; inserting a brand-new `eth` sets `is_favorite = false`. -/
theorem upsert_preserves_favorite_witness :
    findTok (save_tokens_to_cache 9 [mkTok "bitcoin" "btc" "Bitcoin" 100 5 true]
        [mkTok "bitcoin" "btc" "Bitcoin" 150 6 false]) "bitcoin" =
      some { mkTok "bitcoin" "btc" "Bitcoin" 150 6 true with last_updated := 9 } ∧
    findTok (save_tokens_to_cache 9 [] [ethTok]) "eth" =
      some { ethTok with last_updated := 9 } := by
  constructor
  · have h := upsert_preserves_favorite 9
      [mkTok "bitcoin" "btc" "Bitcoin" 100 5 true]
      [mkTok "bitcoin" "btc" "Bitcoin" 150 6 false]
      (mkTok "bitcoin" "btc" "Bitcoin" 150 6 false) (by decide)
    exact h.trans (by decide)
  · have h := upsert_preserves_favorite 9 [] [ethTok] ethTok (by decide)
    exact h.trans (by decide)

/-- Outcome of `get_token`: a 200 token body or the 404 not-found body. -/
inductive TokenResponse where
  | ok (t : CryptoToken)
  | notFound
deriving Repr, DecidableEq

/-- Everything `get_token` produces or touches: the HTTP body, the tokens
collection, the gate state, and whether the upstream fetcher was invoked. -/
structure GetTokenOut where
  resp : TokenResponse
  store : List CryptoToken
  gate : GateState
  calledUpstream : Bool
deriving Repr, DecidableEq

/-- Embeds `handlers.rs::get_token` (lines 155-189): cached hit returns
immediately; on a miss with an open gate the call is recorded and the
single token fetched (persisted blocking via `save_tokens_to_cache` on
success, throttle recorded on a rate-limit-marked failure); otherwise the
not-found body. -/
def get_token (st : GateState) (now : Int) (store : List CryptoToken)
    (id : String) (fetch : Except String CryptoToken) : GetTokenOut :=
  match findTok store id with
  | some t => ⟨.ok t, store, st, false⟩
  | none =>
      if can_make_api_call st now then
        let st1 := record_api_call st now
        match fetch with
        | .ok t => ⟨.ok t, save_tokens_to_cache now store [t], st1, true⟩
        | .error e =>
            ⟨.notFound, store,
              if isRateLimitMsg e then record_rate_limit st1 now else st1, true⟩
      else ⟨.notFound, store, st, false⟩

/-- C6: a cached token is returned as-is with no upstream call and no
state mutation (hence every repetition of the request behaves identically);
upstream is consulted exactly on a cache miss with an open gate; a miss
with a closed gate yields the structured not-found reply. -/
theorem single_token_cache_authoritative (st : GateState) (now : Int)
    (store : List CryptoToken) (id : String)
    (fetch : Except String CryptoToken) :
    (∀ tok, findTok store id = some tok →
      get_token st now store id fetch = ⟨.ok tok, store, st, false⟩) ∧
    ((get_token st now store id fetch).calledUpstream = true ↔
      findTok store id = none ∧ can_make_api_call st now = true) ∧
    (findTok store id = none → can_make_api_call st now = false →
      get_token st now store id fetch = ⟨.notFound, store, st, false⟩) := by
  refine ⟨?_, ?_, ?_⟩
  · intro tok h
    simp [get_token, h]
  · cases h : findTok store id with
    | some t => simp [get_token, h]
    | none =>
        by_cases hc : can_make_api_call st now
        · cases fetch <;> simp [get_token, h, hc]
        · simp [get_token, h, hc]
  · intro h hc
    simp [get_token, h, hc]

/-- Witness for `single_token_cache_authoritative`: with `bitcoin` cached
and the gate throttled, requesting `bitcoin` returns the cached record
untouched and calls nothing; requesting the uncached `eth` returns the
not-found body. -/
theorem single_token_cache_authoritative_witness :
    get_token ⟨none, some 10⟩ 5 [btcTok] "bitcoin" (.error "boom") =
      ⟨.ok btcTok, [btcTok], ⟨none, some 10⟩, false⟩ ∧
    get_token ⟨none, some 10⟩ 5 [btcTok] "eth" (.error "boom") =
      ⟨.notFound, [btcTok], ⟨none, some 10⟩, false⟩ := by
  constructor
  · exact (single_token_cache_authoritative ⟨none, some 10⟩ 5 [btcTok]
      "bitcoin" (.error "boom")).1 btcTok (by decide)
  · exact (single_token_cache_authoritative ⟨none, some 10⟩ 5 [btcTok]
      "eth" (.error "boom")).2.2 (by decide) (by decide)

/-- Outcome of `search_tokens`: a 200 token list or the 400 bad-request
body. -/
inductive SearchResponse where
  | ok (ts : List CryptoToken)
  | badRequest
deriving Repr, DecidableEq

/-- The per-token filter of `search_tokens` (lines 285-289): lowercase
substring match on name, symbol or token id against the lowercased query. -/
def matchesQuery (ql : String) (t : CryptoToken) : Bool :=
  strContains (strLower t.name) ql || strContains (strLower t.symbol) ql ||
    strContains (strLower t.token_id) ql

/-- Embeds `handlers.rs::search_tokens` (lines 265-293): the handler never
touches the gate or the fetcher; a missing or empty `q` is answered with
the 400 bad-request body, otherwise the cached tokens are filtered by
`matchesQuery`. -/
def search_tokens (store : List CryptoToken) (q : String) : SearchResponse :=
  if q.isEmpty then .badRequest
  else .ok ((get_cached_tokens store).filter (matchesQuery (strLower q)))

/-- C7 counterexample: with `bitcoin` cached, the empty query is answered
with the 400 bad-request body — not with the full cached token list the
claim demands. -/
theorem search_empty_query_counterexample :
    search_tokens [btcTok] "" = .badRequest ∧
    search_tokens [btcTok] "" ≠ .ok [btcTok] := by
  exact ⟨rfl, by decide⟩

/-- C7 (amended): search never calls upstream; a non-empty query filters
the cache case-insensitively by substring on name, symbol or token id; the
empty query is rejected with the bad-request body instead of matching
everything. -/
theorem search_filters_cache (store : List CryptoToken) (q : String) :
    (q = "" → search_tokens store q = .badRequest) ∧
    (q ≠ "" → ∃ l, search_tokens store q = .ok l ∧
      ∀ t, t ∈ l ↔ t ∈ store ∧ matchesQuery (strLower q) t = true) := by
  constructor
  · intro h
    subst h
    rfl
  · intro h
    have hne : q.isEmpty = false := by
      cases hq : q.isEmpty with
      | false => rfl
      | true => exact absurd ((String.isEmpty_iff q).1 hq) h
    refine ⟨(get_cached_tokens store).filter (matchesQuery (strLower q)),
      by simp [search_tokens, hne], ?_⟩
    intro t
    rw [List.mem_filter]
    have hmem : t ∈ get_cached_tokens store ↔ t ∈ store :=
      (List.perm_insertionSort mcGE store).mem_iff
    exact and_congr_left (fun _ => hmem)

/-- Witness for `search_filters_cache`: the empty query is rejected, and
the query `"COI"` finds the cached `bitcoin` (matching `"bitcoin"`
case-insensitively). -/
theorem search_filters_cache_witness :
    search_tokens [btcTok] "" = .badRequest ∧
    ∃ l, search_tokens [btcTok] "COI" = .ok l ∧ btcTok ∈ l := by
  constructor
  · exact (search_filters_cache [btcTok] "").1 rfl
  · obtain ⟨l, hl, hmem⟩ := (search_filters_cache [btcTok] "COI").2 (by decide)
    exact ⟨l, hl, (hmem btcTok).2 ⟨by simp, by decide⟩⟩

/-- Rust's `Iterator::max_by` on a key (`handlers.rs` lines 396-398):
`core::cmp::max_by(v1, v2, cmp)` keeps `v1` only when `cmp` says Greater,
so of several equally-maximal elements the LAST one wins. -/
def rustMaxBy {α : Type} (key : α → ℚ) : List α → Option α
  | [] => none
  | x :: xs => some (xs.foldl (fun best y => if key y < key best then best else y) x)

/-- Rust's `Iterator::min_by` on a key (`handlers.rs` lines 400-402):
`core::cmp::min_by(v1, v2, cmp)` yields `v2` only when `cmp` says Greater,
so of several equally-minimal elements the FIRST one wins. -/
def rustMinBy {α : Type} (key : α → ℚ) : List α → Option α
  | [] => none
  | x :: xs => some (xs.foldl (fun best y => if key y < key best then y else best) x)

theorem foldl_max_ge {α : Type} (key : α → ℚ) (l : List α) (m : α) :
    key m ≤ key (l.foldl (fun best y => if key y < key best then best else y) m) ∧
    ∀ z ∈ l, key z ≤
      key (l.foldl (fun best y => if key y < key best then best else y) m) := by
  induction l generalizing m with
  | nil => exact ⟨le_refl _, by simp⟩
  | cons y t ih =>
      have hm : key m ≤ key (if key y < key m then m else y) := by
        by_cases h : key y < key m
        · simp [h]
        · simp [h]; exact le_of_not_lt h
      have hy : key y ≤ key (if key y < key m then m else y) := by
        by_cases h : key y < key m
        · simp [h]; exact le_of_lt h
        · simp [h]
      refine ⟨le_trans hm (ih _).1, ?_⟩
      intro z hz
      rcases List.mem_cons.1 hz with rfl | hzt
      · exact le_trans hy (ih _).1
      · exact (ih _).2 z hzt

theorem foldl_max_last {α : Type} (key : α → ℚ) (l : List α) (m : α) :
    (l.foldl (fun best y => if key y < key best then best else y) m = m ∧
      ∀ z ∈ l, key z < key m) ∨
    ∃ l1 z l2, l = l1 ++ z :: l2 ∧
      l.foldl (fun best y => if key y < key best then best else y) m = z ∧
      ∀ w ∈ l2, key w < key z := by
  induction l generalizing m with
  | nil => exact Or.inl ⟨rfl, by simp⟩
  | cons y t ih =>
      by_cases h : key y < key m
      · have hfold :
            (y :: t).foldl (fun best y => if key y < key best then best else y) m =
              t.foldl (fun best y => if key y < key best then best else y) m := by
          simp [h]
        rcases ih m with ⟨heq, hall⟩ | ⟨l1, z, l2, hsplit, heq, hlast⟩
        · refine Or.inl ⟨hfold.trans heq, ?_⟩
          intro z hz
          rcases List.mem_cons.1 hz with rfl | hzt
          · exact h
          · exact hall z hzt
        · exact Or.inr ⟨y :: l1, z, l2, by rw [hsplit]; rfl,
            hfold.trans heq, hlast⟩
      · have hfold :
            (y :: t).foldl (fun best y => if key y < key best then best else y) m =
              t.foldl (fun best y => if key y < key best then best else y) y := by
          simp [h]
        rcases ih y with ⟨heq, hall⟩ | ⟨l1, z, l2, hsplit, heq, hlast⟩
        · exact Or.inr ⟨[], y, t, rfl, hfold.trans heq, hall⟩
        · exact Or.inr ⟨y :: l1, z, l2, by rw [hsplit]; rfl,
            hfold.trans heq, hlast⟩

theorem foldl_min_le {α : Type} (key : α → ℚ) (l : List α) (m : α) :
    key (l.foldl (fun best y => if key y < key best then y else best) m) ≤ key m ∧
    ∀ z ∈ l,
      key (l.foldl (fun best y => if key y < key best then y else best) m) ≤
        key z := by
  induction l generalizing m with
  | nil => exact ⟨le_refl _, by simp⟩
  | cons y t ih =>
      have hm : key (if key y < key m then y else m) ≤ key m := by
        by_cases h : key y < key m
        · simp [h]; exact le_of_lt h
        · simp [h]
      have hy : key (if key y < key m then y else m) ≤ key y := by
        by_cases h : key y < key m
        · simp [h]
        · simp [h]; exact le_of_not_lt h
      refine ⟨le_trans (ih _).1 hm, ?_⟩
      intro z hz
      rcases List.mem_cons.1 hz with rfl | hzt
      · exact le_trans (ih _).1 hy
      · exact (ih _).2 z hzt

theorem foldl_min_first {α : Type} (key : α → ℚ) (l : List α) (m : α) :
    l.foldl (fun best y => if key y < key best then y else best) m = m ∨
    ∃ l1 z l2, l = l1 ++ z :: l2 ∧
      l.foldl (fun best y => if key y < key best then y else best) m = z ∧
      key z < key m ∧ ∀ w ∈ l1, key z < key w := by
  induction l generalizing m with
  | nil => exact Or.inl rfl
  | cons y t ih =>
      by_cases h : key y < key m
      · have hfold :
            (y :: t).foldl (fun best y => if key y < key best then y else best) m =
              t.foldl (fun best y => if key y < key best then y else best) y := by
          simp [h]
        rcases ih y with heq | ⟨l1, z, l2, hsplit, heq, hlt, hfirst⟩
        · exact Or.inr ⟨[], y, t, rfl, hfold.trans heq, h, by simp⟩
        · refine Or.inr ⟨y :: l1, z, l2, by rw [hsplit]; rfl,
            hfold.trans heq, lt_trans hlt h, ?_⟩
          intro w hw
          rcases List.mem_cons.1 hw with rfl | hwl
          · exact hlt
          · exact hfirst w hwl
      · have hfold :
            (y :: t).foldl (fun best y => if key y < key best then y else best) m =
              t.foldl (fun best y => if key y < key best then y else best) m := by
          simp [h]
        rcases ih m with heq | ⟨l1, z, l2, hsplit, heq, hlt, hfirst⟩
        · exact Or.inl (hfold.trans heq)
        · refine Or.inr ⟨y :: l1, z, l2, by rw [hsplit]; rfl,
            hfold.trans heq, hlt, ?_⟩
          intro w hw
          rcases List.mem_cons.1 hw with rfl | hwl
          · exact lt_of_lt_of_le hlt (le_of_not_lt h)
          · exact hfirst w hwl

theorem foldl_add_eq_sum {α : Type} (f : α → ℚ) (l : List α) (a : ℚ) :
    l.foldl (fun acc t => acc + f t) a = a + (l.map f).sum := by
  induction l generalizing a with
  | nil => simp
  | cons x t ih =>
      simp only [List.foldl_cons, List.map_cons, List.sum_cons, ih]
      ring

/-- Embeds `models.rs::TokenStats`. -/
structure TokenStats where
  total_tokens : Nat
  total_market_cap : ℚ
  total_volume_24h : ℚ
  avg_price_change_24h : ℚ
  biggest_gainer : Option CryptoToken
  biggest_loser : Option CryptoToken
deriving Repr, DecidableEq

/-- Embeds `handlers.rs::get_stats` (lines 376-414): pure aggregation over
the cached tokens (no gate, no fetcher); empty cache yields the all-zero /
none record, otherwise count, iterator sums, mean, and `max_by` / `min_by`
on the 24h percentage change. -/
def get_stats (store : List CryptoToken) : TokenStats :=
  let tokens := get_cached_tokens store
  if tokens.isEmpty then
    ⟨0, 0, 0, 0, none, none⟩
  else
    ⟨tokens.length,
     tokens.foldl (fun acc t => acc + t.market_cap) 0,
     tokens.foldl (fun acc t => acc + t.volume_24h) 0,
     tokens.foldl (fun acc t => acc + t.price_change_percentage_24h) 0 /
       (tokens.length : ℚ),
     rustMaxBy (fun t => t.price_change_percentage_24h) tokens,
     rustMinBy (fun t => t.price_change_percentage_24h) tokens⟩

/-- C8 counterexample: `eth` and `bitcoin` tie at +5% and iterate in the
order `[eth, bitcoin]`, yet `biggest_gainer` is `bitcoin` — the
last-encountered of the tied tokens, not the first-encountered one the
claim asserts. -/
theorem stats_gainer_tie_counterexample :
    get_cached_tokens [ethTok, btcTok] = [ethTok, btcTok] ∧
    ethTok.price_change_percentage_24h = btcTok.price_change_percentage_24h ∧
    (get_stats [ethTok, btcTok]).biggest_gainer = some btcTok ∧
    btcTok ≠ ethTok := by
  refine ⟨by decide, by decide, by decide, by decide⟩

/-- C8 (amended): over the cache snapshot alone, `get_stats` reports the
token count, the sums of market caps and 24h volumes, the mean 24h
percentage change, and extreme-change tokens: `biggest_gainer` attains the
maximum percentage change with ties broken by the LAST-encountered token in
iteration order, `biggest_loser` attains the minimum with ties broken by
the first-encountered; an empty cache yields the all-zero/none record. -/
theorem stats_aggregation (store : List CryptoToken) :
    (store = [] → get_stats store = ⟨0, 0, 0, 0, none, none⟩) ∧
    (store ≠ [] →
      (get_stats store).total_tokens = (get_cached_tokens store).length ∧
      (get_stats store).total_market_cap =
        ((get_cached_tokens store).map (fun t => t.market_cap)).sum ∧
      (get_stats store).total_volume_24h =
        ((get_cached_tokens store).map (fun t => t.volume_24h)).sum ∧
      (get_stats store).avg_price_change_24h =
        ((get_cached_tokens store).map
          (fun t => t.price_change_percentage_24h)).sum /
          ((get_cached_tokens store).length : ℚ) ∧
      (∃ l1 g l2, get_cached_tokens store = l1 ++ g :: l2 ∧
        (get_stats store).biggest_gainer = some g ∧
        (∀ z ∈ get_cached_tokens store,
          z.price_change_percentage_24h ≤ g.price_change_percentage_24h) ∧
        ∀ w ∈ l2,
          w.price_change_percentage_24h < g.price_change_percentage_24h) ∧
      (∃ l1 lo l2, get_cached_tokens store = l1 ++ lo :: l2 ∧
        (get_stats store).biggest_loser = some lo ∧
        (∀ z ∈ get_cached_tokens store,
          lo.price_change_percentage_24h ≤ z.price_change_percentage_24h) ∧
        ∀ w ∈ l1,
          lo.price_change_percentage_24h < w.price_change_percentage_24h)) := by
  constructor
  · intro h
    subst h
    rfl
  · intro hne
    have hperm : (get_cached_tokens store).Perm store :=
      List.perm_insertionSort mcGE store
    have hne2 : get_cached_tokens store ≠ [] := by
      intro h0
      have h1 : List.Perm ([] : List CryptoToken) store := h0 ▸ hperm
      exact hne (List.Perm.eq_nil h1.symm)
    rcases htok : get_cached_tokens store with _ | ⟨x, xs⟩
    · exact absurd htok hne2
    have hempty : (get_cached_tokens store).isEmpty = false := by
      rw [htok]; rfl
    have hstats : get_stats store =
        ⟨(x :: xs).length,
         (x :: xs).foldl (fun acc t => acc + t.market_cap) 0,
         (x :: xs).foldl (fun acc t => acc + t.volume_24h) 0,
         (x :: xs).foldl
             (fun acc t => acc + t.price_change_percentage_24h) 0 /
           ((x :: xs).length : ℚ),
         rustMaxBy (fun t => t.price_change_percentage_24h) (x :: xs),
         rustMinBy (fun t => t.price_change_percentage_24h) (x :: xs)⟩ := by
      simp only [get_stats, htok, List.isEmpty_cons, Bool.false_eq_true,
        if_false]
    refine ⟨?_, ?_, ?_, ?_, ?_, ?_⟩
    · simp [hstats]
    · simp only [hstats]
      simpa using foldl_add_eq_sum (fun t => t.market_cap) (x :: xs) 0
    · simp only [hstats]
      simpa using foldl_add_eq_sum (fun t => t.volume_24h) (x :: xs) 0
    · simp only [hstats]
      have hsum := foldl_add_eq_sum (fun t => t.price_change_percentage_24h)
        (x :: xs) 0
      simp only [hsum, zero_add]
    · -- biggest gainer: last of the maximal elements
      have hmax := foldl_max_last (fun t => t.price_change_percentage_24h) xs x
      have hge := foldl_max_ge (fun t => t.price_change_percentage_24h) xs x
      rcases hmax with ⟨heq, hall⟩ | ⟨l1, z, l2, hsplit, heq, hlast⟩
      · refine ⟨[], x, xs, rfl, ?_, ?_, ?_⟩
        · simp only [hstats, rustMaxBy, heq]
        · intro z hz
          rcases List.mem_cons.1 hz with rfl | hzt
          · exact le_refl _
          · exact le_of_lt (hall z hzt)
        · exact fun w hw => hall w hw
      · refine ⟨x :: l1, z, l2, by rw [hsplit]; rfl, ?_, ?_, hlast⟩
        · simp only [hstats, rustMaxBy, heq]
        · intro w hw
          have h2 := heq ▸ hge
          rcases List.mem_cons.1 hw with rfl | hwt
          · exact h2.1
          · exact h2.2 w hwt
    · -- biggest loser: first of the minimal elements
      have hmin := foldl_min_first (fun t => t.price_change_percentage_24h) xs x
      have hle := foldl_min_le (fun t => t.price_change_percentage_24h) xs x
      rcases hmin with heq | ⟨l1, z, l2, hsplit, heq, hlt, hfirst⟩
      · refine ⟨[], x, xs, rfl, ?_, ?_, by simp⟩
        · simp only [hstats, rustMinBy, heq]
        · intro z hz
          have h2 := heq ▸ hle
          rcases List.mem_cons.1 hz with rfl | hzt
          · exact le_refl _
          · exact h2.2 z hzt
      · refine ⟨x :: l1, z, l2, by rw [hsplit]; rfl, ?_, ?_, ?_⟩
        · simp only [hstats, rustMinBy, heq]
        · intro w hw
          have h2 := heq ▸ hle
          rcases List.mem_cons.1 hw with rfl | hwt
          · exact h2.1
          · exact h2.2 w hwt
        · intro w hw
          rcases List.mem_cons.1 hw with rfl | hwl
          · exact hlt
          · exact hfirst w hwl

/-- Witness for `stats_aggregation`: for the cache `[eth, bitcoin]` the
stats report 2 tokens and a summed market cap of 300. -/
theorem stats_aggregation_witness :
    (get_stats [ethTok, btcTok]).total_tokens = 2 ∧
    (get_stats [ethTok, btcTok]).total_market_cap = 300 := by
  have h := (stats_aggregation [ethTok, btcTok]).2 (by decide)
  refine ⟨h.1.trans (by decide), h.2.1.trans ?_⟩
  have hs : get_cached_tokens [ethTok, btcTok] = [ethTok, btcTok] := by decide
  rw [hs]
  simp [ethTok, btcTok, mkTok]
  norm_num

/-- Embeds `models.rs::PriceHistory` (minus the Mongo `_id`). -/
structure PriceHistory where
  token_id : String
  symbol : String
  prices : List (Int × ℚ)
  market_caps : List (Int × ℚ)
  total_volumes : List (Int × ℚ)
  timestamp : Int
deriving Repr, DecidableEq

/-- Embeds `models.rs::CoinGeckoHistoricalData`: each series is a list of
`[timestamp, value]` pairs. -/
structure CoinGeckoHistoricalData where
  prices : List (List ℚ)
  market_caps : List (List ℚ)
  total_volumes : List (List ℚ)
deriving Repr, DecidableEq

/-- The stored shape of one price-history document. The upsert in
`handlers.rs` (lines 347-357) only ever writes the fields `token_id`,
`symbol`, `prices` and `timestamp` in its update document; `market_caps`
and `total_volumes` stay whatever the document already held — absent
(`none`) on a fresh insert. (The stored `prices` entries are also written
as subdocuments with fields `t` and `p`, which serde cannot read back as
`Vec<(i64, f64)>`; the model charitably lets `prices` round-trip, making
the modelled decode MORE permissive than the real one.) -/
structure HistoryDoc where
  token_id : String
  symbol : String
  prices : List (Int × ℚ)
  market_caps : Option (List (Int × ℚ))
  total_volumes : Option (List (Int × ℚ))
  timestamp : Int
deriving Repr, DecidableEq

/-- `find_one` on the history collection's `token_id` filter. -/
def findHist (store : List HistoryDoc) (id : String) : Option HistoryDoc :=
  store.find? (fun d => d.token_id == id)

/-- Deserialization of a stored document into `PriceHistory`
(`Collection<PriceHistory>::find_one`): fails when `market_caps` or
`total_volumes` is absent from the document. -/
def decodeHistory (d : HistoryDoc) : Option PriceHistory :=
  match d.market_caps, d.total_volumes with
  | some mc, some tv =>
      some ⟨d.token_id, d.symbol, d.prices, mc, tv, d.timestamp⟩
  | _, _ => none

/-- The reshaping of a cached series back to the API format
(`handlers.rs` lines 314-318). -/
def reshapeHistory (h : PriceHistory) : CoinGeckoHistoricalData :=
  ⟨h.prices.map (fun tp => [(tp.1 : ℚ), tp.2]),
   h.market_caps.map (fun tp => [(tp.1 : ℚ), tp.2]),
   h.total_volumes.map (fun tp => [(tp.1 : ℚ), tp.2])⟩

/-- `p[0] as i64`: truncation of the value toward zero. -/
def truncToInt (q : ℚ) : Int := Int.tdiv q.num (q.den : Int)

/-- A fetched series as stored pairs: `(p[0] as i64, p[1])`
(`handlers.rs` lines 338-340; the source indexes the rows directly and
would panic on short rows, the model pads with 0). -/
def pairsOfSeries (l : List (List ℚ)) : List (Int × ℚ) :=
  l.map (fun p => (truncToInt (p.getD 0 0), p.getD 1 0))

/-- The `PriceHistory` value built from a fetched series (lines 334-342);
`symbol` is a copy of the token id. -/
def dataToHistory (now : Int) (token_id : String)
    (d : CoinGeckoHistoricalData) : PriceHistory :=
  ⟨token_id, token_id, pairsOfSeries d.prices, pairsOfSeries d.market_caps,
   pairsOfSeries d.total_volumes, now⟩

/-- The history upsert (lines 346-357): the update document's `$set` lists
`token_id`, `symbol`, `prices` and `timestamp` ONLY, so an existing
document keeps its `market_caps`/`total_volumes` and a fresh document is
created without them. -/
def upsertHistory (now : Int) (h : PriceHistory) :
    List HistoryDoc → List HistoryDoc
  | [] => [⟨h.token_id, h.symbol, h.prices, none, none, now⟩]
  | d :: ds =>
      if d.token_id == h.token_id then
        ⟨h.token_id, h.symbol, h.prices, d.market_caps, d.total_volumes,
          now⟩ :: ds
      else d :: upsertHistory now h ds

/-- Outcome of `get_historical_data`: the 200 series body or the 503
`retry_after: 30` body. -/
inductive HistoryResponse where
  | ok (d : CoinGeckoHistoricalData)
  | unavailable (retry_after : Nat)
deriving Repr, DecidableEq

/-- Embeds `handlers.rs::get_historical_data` (lines 295-374): gate closed
reads the cached document (serving its reshaped series if it decodes,
else the retry-30 body); gate open records the call and fetches — success
upserts and returns the fresh series, failure applies the throttle-marker
rule and returns the retry-30 body. -/
def get_historical_data (st : GateState) (now : Int)
    (store : List HistoryDoc) (token_id : String)
    (fetch : Except String CoinGeckoHistoricalData) :
    HistoryResponse × List HistoryDoc × GateState :=
  if !can_make_api_call st now then
    match (findHist store token_id).bind decodeHistory with
    | some h => (.ok (reshapeHistory h), store, st)
    | none => (.unavailable 30, store, st)
  else
    let st1 := record_api_call st now
    match fetch with
    | .ok data =>
        let h := dataToHistory now token_id data
        (.ok data, upsertHistory now h store, st1)
    | .error e =>
        (.unavailable 30, store,
          if isRateLimitMsg e then record_rate_limit st1 now else st1)

/-- A concrete fetched series: one row in each of the three series. -/
def sampleSeries : CoinGeckoHistoricalData :=
  ⟨[[1, 10]], [[1, 20]], [[1, 30]]⟩

/-- C4 fails on the code: a successful history fetch for `bitcoin` returns
the fresh series but stores a document with NO `market_caps` and NO
`total_volumes` (the update document omits them), so the immediately
following gate-closed request cannot decode a cached series and answers
the unavailable/retry-30 body instead of the reshaped series the claim
requires. -/
theorem history_cache_roundtrip_bug :
    (get_historical_data ⟨none, none⟩ 0 [] "bitcoin" (.ok sampleSeries)).1 =
      .ok sampleSeries ∧
    (get_historical_data ⟨none, none⟩ 0 [] "bitcoin" (.ok sampleSeries)).2.1 =
      [⟨"bitcoin", "bitcoin", [(1, 10)], none, none, 0⟩] ∧
    (get_historical_data
        (get_historical_data ⟨none, none⟩ 0 [] "bitcoin"
          (.ok sampleSeries)).2.2
        1
        (get_historical_data ⟨none, none⟩ 0 [] "bitcoin"
          (.ok sampleSeries)).2.1
        "bitcoin" (.error "unused")).1 = .unavailable 30 := by
  refine ⟨by decide, by decide, by decide⟩

/-- Shared state of the interleaving model for C9: the two gate timestamps
plus the log of upstream-attempt instants. -/
structure RaceState where
  gate : GateState
  attempts : List Int
deriving Repr, DecidableEq

/-- One request task's progress through the gate prologue of `get_tokens`
(lines 111-112): its program counter. -/
structure TaskState where
  pc : Nat
deriving Repr, DecidableEq

/-- One atomic step of a request task at instant `now`. Each step is
exactly one mutex-guarded section of the source: pc 0 is the
`RATE_LIMITED_UNTIL` lock/read/check of `can_make_api_call` (lines 18-25,
the lock is dropped before the next section), pc 1 the `LAST_API_CALL`
lock/read/check (lines 27-33), pc 2 `record_api_call` (lines 36-39), pc 3
the upstream attempt; a failed check skips to the cache-serving tail
(pc 4). -/
def taskStep (now : Int) (s : RaceState) (t : TaskState) :
    RaceState × TaskState :=
  match t.pc with
  | 0 =>
      let blocked := match s.gate.rlUntil with
        | some u => decide (now < u)
        | none => false
      (s, ⟨if blocked then 4 else 1⟩)
  | 1 =>
      let blocked := match s.gate.lastCall with
        | some l => decide (now - l < MIN_REQUEST_INTERVAL_SECS)
        | none => false
      (s, ⟨if blocked then 4 else 2⟩)
  | 2 => ({ s with gate := record_api_call s.gate now }, ⟨3⟩)
  | 3 => ({ s with attempts := s.attempts ++ [now] }, ⟨4⟩)
  | _ => (s, t)

/-- Run two racing request tasks under a schedule (`true` steps the first
task, `false` the second). -/
def raceExec (now : Int) : List Bool → RaceState → TaskState → TaskState →
    RaceState × TaskState × TaskState
  | [], s, t1, t2 => (s, t1, t2)
  | c :: cs, s, t1, t2 =>
      if c then
        let p := taskStep now s t1
        raceExec now cs p.1 p.2 t2
      else
        let p := taskStep now s t2
        raceExec now cs p.1 t1 p.2

/-- Whether some two logged upstream attempts lie strictly within the
minimum interval of each other. -/
def closeAttemptPair : List Int → Bool
  | [] => false
  | a :: rest =>
      rest.any (fun b => (a - b).natAbs < 2) || closeAttemptPair rest

/-- C9 fails on the code: because `can_make_api_call` and
`record_api_call` take and release separate locks, the interleaving in
which both tasks run their two checks before either records yields TWO
upstream attempts at the same instant — strictly within the minimum
interval — even though both started from an un-throttled gate. -/
theorem gate_race_two_attempts :
    (raceExec 5 [true, true, false, false, true, true, false, false]
        ⟨⟨none, none⟩, []⟩ ⟨0⟩ ⟨0⟩).1.attempts = [5, 5] ∧
    closeAttemptPair
      (raceExec 5 [true, true, false, false, true, true, false, false]
          ⟨⟨none, none⟩, []⟩ ⟨0⟩ ⟨0⟩).1.attempts = true := by
  refine ⟨by decide, by decide⟩
